import Mathlib

/-!
Verification of the blob-storage utility subsystem of the news-ingestion-api
repository (src/utils/blob.py and src/utils/search.py), shallowly embedded in
Lean 4.

Python strings are modelled as lists of characters (List Char) where the code
manipulates text, and as lists of code points / bytes (List Nat) where the code
manipulates encodings.  Stateful code (the Azure blob backend) is modelled by
explicit state passing over an association-list store, and backend calls are
recorded as an explicit call trace.  Fallible code returns Except.
-/

/-! ## BlobNameValidator (src/utils/blob.py, lines 61-115) -/

/-- Characters matched by ILLEGAL_CHARS_PATTERN, the regex [\\/?#%]. -/
def isIllegalChar (c : Char) : Bool :=
  c = '\\' || c = '/' || c = '?' || c = '#' || c = '%'

/-- Characters matched by WHITESPACE_PATTERN, the regex \s+ (ASCII whitespace;
the Unicode-only whitespace code points are immaterial to the claims). -/
def isSpaceChar (c : Char) : Bool :=
  c = ' ' || c = '\t' || c = '\n' || c = '\r' || c = '\x0b' || c = '\x0c'

/-- Characters stripped from both ends by str.strip(' .'). -/
def isStripChar (c : Char) : Bool :=
  c = ' ' || c = '.'

/-- Regex substitution ILLEGAL_CHARS_PATTERN.sub('_', name): every illegal
character is replaced by an underscore. -/
def replaceIllegal (l : List Char) : List Char :=
  l.map (fun c => if isIllegalChar c then '_' else c)

/-- Regex substitution WHITESPACE_PATTERN.sub('_', safe): every maximal run of
whitespace characters is replaced by a single underscore.  The Boolean flag
records whether the previous character belonged to a whitespace run. -/
def collapseAux : Bool → List Char → List Char
  | _, [] => []
  | prevSpace, c :: cs =>
    if isSpaceChar c then
      (if prevSpace then [] else ['_']) ++ collapseAux true cs
    else
      c :: collapseAux false cs

/-- Whitespace-run collapsing as performed on a whole string. -/
def collapseWs (l : List Char) : List Char :=
  collapseAux false l

/-- Removal of a trailing run of characters satisfying p, the right half of
str.strip. -/
def rstripP (p : Char → Bool) : List Char → List Char
  | [] => []
  | c :: cs =>
    if rstripP p cs = [] ∧ p c then [] else c :: rstripP p cs

/-- Python str.strip(' .'): removes the leading and trailing runs of spaces
and dots. -/
def stripBoth (l : List Char) : List Char :=
  rstripP isStripChar (l.dropWhile isStripChar)

/-- Value of the local variable safe in BlobNameValidator.sanitize just before
the length-limiting step: illegal characters replaced, whitespace runs
collapsed, ends stripped, and the empty result replaced by "unnamed". -/
def sanitizeCore (name : List Char) : List Char :=
  let s := stripBoth (collapseWs (replaceIllegal name))
  if s = [] then "unnamed".toList else s

/-- BlobNameValidator.sanitize (src/utils/blob.py lines 68-104).  Raises
ValueError (modelled as Except.error) exactly on the empty input; otherwise
runs the sanitizing pipeline, truncates (reserving four characters for the
extension when requested) and appends ".txt" when add_extension is true. -/
def BlobNameValidator.sanitize (name : List Char) (add_extension : Bool) :
    Except String (List Char) :=
  if name = [] then Except.error "Blob name cannot be empty"
  else if add_extension then
    Except.ok ((sanitizeCore name).take (1024 - 4) ++ ".txt".toList)
  else
    Except.ok ((sanitizeCore name).take 1024)

/-- BlobNameValidator.validate (src/utils/blob.py lines 106-115): non-empty,
within the 1024-character limit, no illegal characters, and equal to its own
strip(' .'). -/
def BlobNameValidator.validate (name : List Char) : Bool :=
  if name = [] ∨ name.length > 1024 then false
  else if name.any isIllegalChar ∨ name ≠ stripBoth name then false
  else true

/-! ### Helper lemmas about the sanitizing pipeline -/

theorem mem_replaceIllegal_not_illegal {l : List Char} {x : Char}
    (hx : x ∈ replaceIllegal l) : isIllegalChar x = false := by
  simp only [replaceIllegal, List.mem_map] at hx
  obtain ⟨c, _, hc⟩ := hx
  by_cases h : isIllegalChar c = true
  · simp [h] at hc
    subst hc
    decide
  · simp [h] at hc
    subst hc
    simpa using h

theorem mem_collapseAux {b : Bool} {l : List Char} {x : Char}
    (hx : x ∈ collapseAux b l) : x = '_' ∨ x ∈ l := by
  induction l generalizing b with
  | nil => simp [collapseAux] at hx
  | cons c cs ih =>
    by_cases h : isSpaceChar c = true
    · cases b with
      | true =>
        simp only [collapseAux, h, if_true, List.nil_append] at hx
        rcases ih hx with h2 | h2
        · exact Or.inl h2
        · exact Or.inr (List.mem_cons_of_mem _ h2)
      | false =>
        simp only [collapseAux, h, if_true] at hx
        simp only [Bool.false_eq_true, if_false, List.singleton_append,
          List.mem_cons] at hx
        rcases hx with h1 | h1
        · exact Or.inl h1
        · rcases ih h1 with h2 | h2
          · exact Or.inl h2
          · exact Or.inr (List.mem_cons_of_mem _ h2)
    · have h' : isSpaceChar c = false := by simpa using h
      simp only [collapseAux, h', Bool.false_eq_true, if_false,
        List.mem_cons] at hx
      rcases hx with h1 | h1
      · exact Or.inr (by simp [h1])
      · rcases ih h1 with h2 | h2
        · exact Or.inl h2
        · exact Or.inr (List.mem_cons_of_mem _ h2)

theorem mem_collapseAux_not_space {b : Bool} {l : List Char} {x : Char}
    (hx : x ∈ collapseAux b l) : isSpaceChar x = false := by
  induction l generalizing b with
  | nil => simp [collapseAux] at hx
  | cons c cs ih =>
    by_cases h : isSpaceChar c = true
    · cases b with
      | true =>
        simp only [collapseAux, h, if_true, List.nil_append] at hx
        exact ih hx
      | false =>
        simp only [collapseAux, h, if_true] at hx
        simp only [Bool.false_eq_true, if_false, List.singleton_append,
          List.mem_cons] at hx
        rcases hx with h1 | h1
        · subst h1
          decide
        · exact ih h1
    · have h' : isSpaceChar c = false := by simpa using h
      simp only [collapseAux, h', Bool.false_eq_true, if_false,
        List.mem_cons] at hx
      rcases hx with h1 | h1
      · subst h1
        exact h'
      · exact ih h1

theorem collapseAux_eq_self {l : List Char}
    (hl : ∀ x ∈ l, isSpaceChar x = false) : ∀ b, collapseAux b l = l := by
  induction l with
  | nil => intro b; rfl
  | cons c cs ih =>
    intro b
    have hc : isSpaceChar c = false := hl c (by simp)
    simp only [collapseAux, hc]
    simp only [Bool.false_eq_true, if_false]
    exact congrArg (c :: ·) (ih (fun x hx => hl x (List.mem_cons_of_mem _ hx)) false)

theorem replaceIllegal_eq_self {l : List Char}
    (hl : ∀ x ∈ l, isIllegalChar x = false) : replaceIllegal l = l := by
  induction l with
  | nil => rfl
  | cons c cs ih =>
    have hc : isIllegalChar c = false := hl c (by simp)
    simp only [replaceIllegal, List.map_cons, hc]
    simp only [Bool.false_eq_true, if_false, List.cons.injEq, true_and]
    exact ih (fun x hx => hl x (List.mem_cons_of_mem _ hx))

theorem rstripP_cons (p : Char → Bool) (c : Char) (cs : List Char) :
    rstripP p (c :: cs)
      = if rstripP p cs = [] ∧ p c = true then [] else c :: rstripP p cs := rfl

theorem mem_rstripP {p : Char → Bool} {l : List Char} {x : Char}
    (hx : x ∈ rstripP p l) : x ∈ l := by
  induction l with
  | nil => simp [rstripP] at hx
  | cons c cs ih =>
    simp only [rstripP] at hx
    by_cases h : rstripP p cs = [] ∧ p c = true
    · simp [h] at hx
    · simp [h] at hx
      rcases hx with h1 | h1
      · simp [h1]
      · exact List.mem_cons_of_mem _ (ih h1)

theorem rstripP_head {p : Char → Bool} {l : List Char}
    (h : rstripP p l ≠ []) : (rstripP p l).head? = l.head? := by
  cases l with
  | nil => simp [rstripP] at h
  | cons c cs =>
    simp only [rstripP] at h ⊢
    by_cases hb : rstripP p cs = [] ∧ p c = true
    · simp [hb] at h
    · simp [hb]

theorem rstripP_getLast {p : Char → Bool} {l : List Char} {x : Char}
    (hx : (rstripP p l).getLast? = some x) : p x = false := by
  induction l with
  | nil => simp [rstripP] at hx
  | cons c cs ih =>
    rw [rstripP_cons] at hx
    by_cases hb : rstripP p cs = [] ∧ p c = true
    · simp [hb] at hx
    · rw [if_neg hb] at hx
      cases hr : rstripP p cs with
      | nil =>
        rw [hr] at hx
        simp at hx
        subst hx
        rcases Decidable.em (p c = true) with hp | hp
        · exact absurd ⟨hr, hp⟩ hb
        · simpa using hp
      | cons d ds =>
        rw [hr] at hx
        rw [List.getLast?_cons_cons] at hx
        exact ih (hr ▸ hx)

theorem rstripP_eq_self {p : Char → Bool} {l : List Char}
    (hl : ∀ x, l.getLast? = some x → p x = false) : rstripP p l = l := by
  induction l with
  | nil => rfl
  | cons c cs ih =>
    cases cs with
    | nil =>
      have hc : p c = false := hl c (by simp)
      simp [rstripP_cons, hc, rstripP]
    | cons d ds =>
      have hcs : rstripP p (d :: ds) = d :: ds := by
        apply ih
        intro x hx
        apply hl
        rw [List.getLast?_cons_cons]
        exact hx
      rw [rstripP_cons, hcs]
      simp

theorem dropWhile_head_not {p : Char → Bool} {l : List Char} {x : Char}
    (hx : (l.dropWhile p).head? = some x) : p x = false := by
  induction l with
  | nil => simp [List.dropWhile] at hx
  | cons c cs ih =>
    simp only [List.dropWhile] at hx
    by_cases h : p c = true
    · rw [h] at hx
      exact ih (by simpa using hx)
    · have h' : p c = false := by simpa using h
      rw [h'] at hx
      simp at hx
      subst hx
      exact h'

theorem dropWhile_eq_self {p : Char → Bool} {l : List Char}
    (hl : ∀ x, l.head? = some x → p x = false) : l.dropWhile p = l := by
  cases l with
  | nil => rfl
  | cons c cs =>
    have hc : p c = false := hl c (by simp)
    simp [List.dropWhile, hc]

theorem mem_stripBoth {l : List Char} {x : Char} (hx : x ∈ stripBoth l) :
    x ∈ l := by
  have h1 := mem_rstripP hx
  exact (List.dropWhile_sublist isStripChar).mem h1

theorem stripBoth_head {l : List Char} {x : Char}
    (hx : (stripBoth l).head? = some x) : isStripChar x = false := by
  unfold stripBoth at hx
  have hne : rstripP isStripChar (l.dropWhile isStripChar) ≠ [] := by
    intro h
    rw [h] at hx
    simp at hx
  rw [rstripP_head hne] at hx
  exact dropWhile_head_not hx

theorem stripBoth_getLast {l : List Char} {x : Char}
    (hx : (stripBoth l).getLast? = some x) : isStripChar x = false :=
  rstripP_getLast hx

theorem stripBoth_eq_self {l : List Char}
    (h1 : ∀ x, l.head? = some x → isStripChar x = false)
    (h2 : ∀ x, l.getLast? = some x → isStripChar x = false) :
    stripBoth l = l := by
  unfold stripBoth
  rw [dropWhile_eq_self h1]
  exact rstripP_eq_self h2

/-! ### Facts about sanitizeCore -/

theorem sanitizeCore_ne_nil (name : List Char) : sanitizeCore name ≠ [] := by
  unfold sanitizeCore
  by_cases h : stripBoth (collapseWs (replaceIllegal name)) = []
  · simp [h]
  · simp [h]

theorem mem_sanitizeCore {name : List Char} {x : Char}
    (hx : x ∈ sanitizeCore name) :
    isIllegalChar x = false ∧ isSpaceChar x = false := by
  unfold sanitizeCore at hx
  by_cases h : stripBoth (collapseWs (replaceIllegal name)) = []
  · simp only [h, if_true] at hx
    have hx' : x ∈ ['u', 'n', 'n', 'a', 'm', 'e', 'd'] := hx
    simp only [List.mem_cons, List.not_mem_nil, or_false] at hx'
    rcases hx' with rfl | rfl | rfl | rfl | rfl | rfl | rfl <;> decide
  · simp only [h, if_false] at hx
    have h1 : x ∈ collapseWs (replaceIllegal name) := mem_stripBoth hx
    have hsp : isSpaceChar x = false := mem_collapseAux_not_space h1
    rcases mem_collapseAux h1 with h2 | h2
    · subst h2
      exact ⟨by decide, by decide⟩
    · exact ⟨mem_replaceIllegal_not_illegal h2, hsp⟩

theorem sanitizeCore_head {name : List Char} {x : Char}
    (hx : (sanitizeCore name).head? = some x) : isStripChar x = false := by
  unfold sanitizeCore at hx
  by_cases h : stripBoth (collapseWs (replaceIllegal name)) = []
  · simp only [h, if_true] at hx
    have : x = 'u' := by
      have : ("unnamed".toList).head? = some 'u' := rfl
      rw [this] at hx
      exact (Option.some.injEq _ _ ▸ hx).symm
    subst this
    decide
  · simp only [h, if_false] at hx
    exact stripBoth_head hx

theorem sanitizeCore_getLast {name : List Char} {x : Char}
    (hx : (sanitizeCore name).getLast? = some x) : isStripChar x = false := by
  unfold sanitizeCore at hx
  by_cases h : stripBoth (collapseWs (replaceIllegal name)) = []
  · simp only [h, if_true] at hx
    have : x = 'd' := by
      have hu : ("unnamed".toList).getLast? = some 'd' := rfl
      rw [hu] at hx
      exact (Option.some.injEq _ _ ▸ hx).symm
    subst this
    decide
  · simp only [h, if_false] at hx
    exact stripBoth_getLast hx

theorem head?_take {n : Nat} {l : List Char} (hn : 0 < n) (hl : l ≠ []) :
    (l.take n).head? = l.head? := by
  obtain ⟨c, cs, rfl⟩ := List.exists_cons_of_ne_nil hl
  obtain ⟨k, rfl⟩ : ∃ k, n = k + 1 := by
    cases n with
    | zero => exact absurd hn (by simp)
    | succ k => exact ⟨k, rfl⟩
  simp

theorem getLast?_append_cons {b : Char} (a bs : List Char) :
    (a ++ b :: bs).getLast? = (b :: bs).getLast? := by
  induction a with
  | nil => rfl
  | cons x xs ih =>
    cases xs with
    | nil => exact Eq.trans List.getLast?_cons_cons ih
    | cons y ys => exact Eq.trans List.getLast?_cons_cons ih

theorem validate_of {r : List Char} (h1 : r ≠ []) (h2 : r.length ≤ 1024)
    (h3 : ∀ x ∈ r, isIllegalChar x = false) (h4 : stripBoth r = r) :
    BlobNameValidator.validate r = true := by
  unfold BlobNameValidator.validate
  rw [if_neg, if_neg]
  · intro hc
    rcases hc with hc | hc
    · have := List.any_eq_true.mp hc
      obtain ⟨x, hx, hpx⟩ := this
      rw [h3 x hx] at hpx
      exact absurd hpx (by simp)
    · exact hc h4.symm
  · intro hc
    rcases hc with hc | hc
    · exact h1 hc
    · omega

theorem isStripChar_eq_false {x : Char} (h1 : x ≠ ' ') (h2 : x ≠ '.') :
    isStripChar x = false := by
  simp [isStripChar]
  exact ⟨h1, h2⟩

theorem ne_space_of_not_space {x : Char} (h : isSpaceChar x = false) :
    x ≠ ' ' := by
  intro hx
  subst hx
  simp [isSpaceChar] at h

/-- C3 (amended): for every non-empty name, the output of sanitize with
add_extension = true satisfies validate; with add_extension = false it
satisfies validate provided the sanitized core is within the 1024-character
limit (otherwise truncation can expose a trailing dot, see the
counterexample). -/
theorem sanitize_satisfies_validate (name : List Char) (h : name ≠ []) :
    (∀ r, BlobNameValidator.sanitize name true = Except.ok r →
      BlobNameValidator.validate r = true)
  ∧ (∀ r, BlobNameValidator.sanitize name false = Except.ok r →
      (sanitizeCore name).length ≤ 1024 →
      BlobNameValidator.validate r = true) := by
  constructor
  · intro r hr
    simp only [BlobNameValidator.sanitize, if_neg h, if_pos, if_true,
      Except.ok.injEq] at hr
    subst hr
    have hcore := sanitizeCore_ne_nil name
    have hAhead : ((sanitizeCore name).take (1024 - 4)).head?
        = (sanitizeCore name).head? := head?_take (by norm_num) hcore
    have hAlen : ((sanitizeCore name).take (1024 - 4)).length ≤ 1024 - 4 := by
      simp [List.length_take]
    apply validate_of
    · apply List.ne_nil_of_length_pos
      simp [List.length_append]
    · have h4 : (".txt".toList).length = 4 := rfl
      rw [List.length_append, h4]
      omega
    · intro x hx
      rcases List.mem_append.mp hx with h1 | h1
      · exact (mem_sanitizeCore (List.take_subset _ _ h1)).1
      · have h1' : x ∈ ['.', 't', 'x', 't'] := h1
        simp only [List.mem_cons, List.not_mem_nil, or_false] at h1'
        rcases h1' with rfl | rfl | rfl | rfl <;> decide
    · apply stripBoth_eq_self
      · intro x hx
        rw [List.head?_append, hAhead] at hx
        cases hc : (sanitizeCore name).head? with
        | none =>
          rw [hc] at hx
          cases hd : (".txt".toList).head? with
          | none => rw [hd] at hx; simp at hx
          | some d =>
            have : (sanitizeCore name) = [] := by
              cases hcc : sanitizeCore name with
              | nil => rfl
              | cons a as => rw [hcc] at hc; simp at hc
            exact absurd this hcore
        | some c =>
          rw [hc] at hx
          simp at hx
          subst hx
          exact sanitizeCore_head hc
      · intro x hx
        have ht : (".txt".toList : List Char) = '.' :: ['t', 'x', 't'] := rfl
        rw [ht, getLast?_append_cons] at hx
        have : ('.' :: ['t', 'x', 't'] : List Char).getLast? = some 't' := rfl
        rw [this] at hx
        simp at hx
        subst hx
        decide
  · intro r hr hlen
    simp only [BlobNameValidator.sanitize, if_neg h, Bool.false_eq_true,
      if_false, Except.ok.injEq] at hr
    rw [List.take_of_length_le hlen] at hr
    subst hr
    have hcore := sanitizeCore_ne_nil name
    apply validate_of hcore hlen
    · intro x hx
      exact (mem_sanitizeCore hx).1
    · apply stripBoth_eq_self
      · intro x hx
        exact sanitizeCore_head hx
      · intro x hx
        exact sanitizeCore_getLast hx

/-- C3 witness: the first branch of the amended theorem evaluated on the
concrete input "a" with add_extension = true. -/
theorem sanitize_satisfies_validate_witness :
    BlobNameValidator.validate ("a.txt".toList) = true :=
  (sanitize_satisfies_validate ['a'] (by decide)).1 ("a.txt".toList) rfl

/-- C3 counterexample: on a 1025-character name whose 1024th character is a
dot, sanitize with add_extension = false truncates to 1024 characters and
thereby exposes a trailing dot, so the result fails validate. -/
theorem sanitizeCore_of_fixpoints {l : List Char}
    (hne : l ≠ [])
    (hill : ∀ x ∈ l, isIllegalChar x = false)
    (hsp : ∀ x ∈ l, isSpaceChar x = false)
    (hhead : ∀ x, l.head? = some x → isStripChar x = false)
    (hlast : ∀ x, l.getLast? = some x → isStripChar x = false) :
    sanitizeCore l = l := by
  unfold sanitizeCore collapseWs
  rw [replaceIllegal_eq_self hill, collapseAux_eq_self hsp false,
    stripBoth_eq_self hhead hlast]
  simp [hne]

theorem rstripP_append_singleton {p : Char → Bool} {c : Char}
    (hpc : p c = true) (l : List Char) :
    rstripP p (l ++ [c]) = rstripP p l := by
  induction l with
  | nil => simp [rstripP, hpc]
  | cons d ds ih =>
    rw [show (d :: ds) ++ [c] = d :: (ds ++ [c]) from rfl]
    rw [rstripP_cons, rstripP_cons, ih]

theorem strip_trailing_dot (m : Nat) (hm : 0 < m) :
    stripBoth (List.replicate m 'a' ++ ['.']) = List.replicate m 'a' := by
  obtain ⟨k, rfl⟩ : ∃ k, m = k + 1 := ⟨m - 1, by omega⟩
  unfold stripBoth
  rw [dropWhile_eq_self]
  · rw [rstripP_append_singleton (by decide)]
    apply rstripP_eq_self
    intro x hx
    rw [List.getLast?_replicate] at hx
    rw [if_neg (by omega)] at hx
    injection hx with hx
    subst hx
    decide
  · intro x hx
    rw [List.replicate_succ, List.cons_append, List.head?_cons] at hx
    injection hx with hx
    subst hx
    decide

theorem mem_replicate_a_dot_x {m : Nat} {x : Char}
    (hx : x ∈ List.replicate m 'a' ++ ['.', 'x']) :
    x = 'a' ∨ x = '.' ∨ x = 'x' := by
  rcases List.mem_append.mp hx with h | h
  · exact Or.inl (List.eq_of_mem_replicate h)
  · simp only [List.mem_cons, List.not_mem_nil, or_false] at h
    rcases h with rfl | rfl
    · exact Or.inr (Or.inl rfl)
    · exact Or.inr (Or.inr rfl)

theorem sanitizeCore_replicate_a_dot_x (m : Nat) (hm : 0 < m) :
    sanitizeCore (List.replicate m 'a' ++ ['.', 'x'])
      = List.replicate m 'a' ++ ['.', 'x'] := by
  obtain ⟨k, rfl⟩ : ∃ k, m = k + 1 := ⟨m - 1, by omega⟩
  apply sanitizeCore_of_fixpoints
  · rw [List.replicate_succ, List.cons_append]
    exact List.cons_ne_nil _ _
  · intro x hx
    rcases mem_replicate_a_dot_x hx with rfl | rfl | rfl <;> decide
  · intro x hx
    rcases mem_replicate_a_dot_x hx with rfl | rfl | rfl <;> decide
  · intro x hx
    rw [List.replicate_succ, List.cons_append, List.head?_cons] at hx
    injection hx with hx
    subst hx
    decide
  · intro x hx
    rw [getLast?_append_cons] at hx
    have ht : (['.', 'x'] : List Char).getLast? = some 'x' := rfl
    rw [ht] at hx
    injection hx with hx
    subst hx
    decide

theorem take_length_succ_append_two (l : List Char) (c d : Char) :
    (l ++ [c, d]).take (l.length + 1) = l ++ [c] := by
  rw [List.take_append_eq_append_take]
  rw [List.take_of_length_le (by omega)]
  congr 1
  rw [Nat.add_sub_cancel_left]
  rfl

theorem sanitize_false_eq {name : List Char} (h : name ≠ []) :
    BlobNameValidator.sanitize name false
      = Except.ok ((sanitizeCore name).take 1024) := by
  simp [BlobNameValidator.sanitize, h]

theorem validate_eq_false_of_ne_strip {r : List Char}
    (h : r ≠ stripBoth r) (h1 : r ≠ []) (h2 : r.length ≤ 1024) :
    BlobNameValidator.validate r = false := by
  unfold BlobNameValidator.validate
  rw [if_neg, if_pos (Or.inr h)]
  intro hc
  rcases hc with hc | hc
  · exact h1 hc
  · omega

theorem replicate_a_append_ne_nil (m : Nat) (hm : 0 < m) (t : List Char) :
    List.replicate m 'a' ++ t ≠ ([] : List Char) := by
  obtain ⟨k, rfl⟩ : ∃ k, m = k + 1 := ⟨m - 1, by omega⟩
  rw [List.replicate_succ, List.cons_append]
  exact List.cons_ne_nil _ _

/-- C3 counterexample: on a 1025-character name whose 1024th character is a
dot, sanitize with add_extension = false truncates to 1024 characters and
thereby exposes a trailing dot, so the result fails validate. -/
theorem sanitize_validate_counterexample :
    BlobNameValidator.sanitize (List.replicate 1023 'a' ++ ['.', 'x']) false
      = Except.ok (List.replicate 1023 'a' ++ ['.'])
  ∧ BlobNameValidator.validate (List.replicate 1023 'a' ++ ['.']) = false := by
  have hlen : (List.replicate 1023 'a' : List Char).length = 1023 :=
    List.length_replicate 1023 'a'
  constructor
  · rw [sanitize_false_eq (replicate_a_append_ne_nil 1023 (by omega) _)]
    rw [sanitizeCore_replicate_a_dot_x 1023 (by omega)]
    rw [show (1024 : Nat) = (List.replicate 1023 'a' : List Char).length + 1 by
      rw [hlen]]
    rw [take_length_succ_append_two]
  · apply validate_eq_false_of_ne_strip
    · rw [strip_trailing_dot 1023 (by omega)]
      intro heq
      have hl := congrArg List.length heq
      rw [List.length_append, hlen] at hl
      have h1 : (['.'] : List Char).length = 1 := rfl
      rw [h1] at hl
      omega
    · exact replicate_a_append_ne_nil 1023 (by omega) _
    · rw [List.length_append, hlen]
      have h1 : (['.'] : List Char).length = 1 := rfl
      rw [h1]

/-- C4: sanitize raises an error exactly when the name is empty; on a
non-empty name it returns the result of the sanitizing pipeline (illegal
characters replaced, whitespace collapsed, ends stripped, "unnamed"
substituted for an empty intermediate), truncated so that the final result is
at most 1024 characters, with ".txt" appended exactly when add_extension is
true. -/
theorem sanitize_spec (name : List Char) (ext : Bool) :
    ((∃ e, BlobNameValidator.sanitize name ext = Except.error e) ↔ name = [])
  ∧ (∀ r, BlobNameValidator.sanitize name ext = Except.ok r →
      r.length ≤ 1024 ∧ (ext = true → ∃ pre, r = pre ++ ".txt".toList))
  ∧ (name ≠ [] → BlobNameValidator.sanitize name ext
      = Except.ok (if ext then (sanitizeCore name).take (1024 - 4) ++ ".txt".toList
          else (sanitizeCore name).take 1024)) := by
  by_cases h : name = []
  · subst h
    refine ⟨⟨fun _ => rfl, fun _ => ⟨"Blob name cannot be empty", rfl⟩⟩,
      ?_, fun hne => absurd rfl hne⟩
    intro r hr
    exact absurd hr (by simp [BlobNameValidator.sanitize])
  · have hok : BlobNameValidator.sanitize name ext
        = Except.ok (if ext then (sanitizeCore name).take (1024 - 4) ++ ".txt".toList
            else (sanitizeCore name).take 1024) := by
      unfold BlobNameValidator.sanitize
      rw [if_neg h]
      cases ext
      · rw [if_neg (by simp), if_neg (by simp)]
      · rw [if_pos rfl, if_pos rfl]
    refine ⟨⟨fun he => ?_, fun hh => absurd hh h⟩, fun r hr => ?_, fun _ => hok⟩
    · obtain ⟨e, he⟩ := he
      rw [hok] at he
      exact Except.noConfusion he
    · rw [hok] at hr
      injection hr with hr
      subst hr
      cases ext
      · constructor
        · rw [if_neg (by simp), List.length_take]
          exact Nat.min_le_left _ _
        · intro he
          exact absurd he (by simp)
      · constructor
        · rw [if_pos rfl, List.length_append, List.length_take]
          have h4 : (".txt".toList).length = 4 := rfl
          rw [h4]
          have := Nat.min_le_left (1024 - 4) (sanitizeCore name).length
          omega
        · intro _
          rw [if_pos rfl]
          exact ⟨_, rfl⟩

/-- C4 witness: the concrete test from the spec, sanitize of 2000 copies of
the letter x with add_extension = true, produces a result of length at most
1024 that ends in ".txt". -/
theorem sanitize_spec_witness :
    ∃ r, BlobNameValidator.sanitize (List.replicate 2000 'x') true
        = Except.ok r
      ∧ r.length ≤ 1024 ∧ ∃ pre, r = pre ++ ".txt".toList := by
  have h := sanitize_spec (List.replicate 2000 'x') true
  have hne : List.replicate 2000 'x' ≠ ([] : List Char) := by
    intro heq
    have hl := congrArg List.length heq
    rw [List.length_replicate] at hl
    simp at hl
  have hok := h.2.2 hne
  rw [if_pos rfl] at hok
  exact ⟨_, hok, (h.2.1 _ hok).1, (h.2.1 _ hok).2 rfl⟩

/-- C10 (amended): sanitize with add_extension = false is idempotent on every
non-empty input whose first-pass output does not end in a dot; when truncation
at 1024 characters exposes a trailing dot, a second pass strips it (see the
counterexample). -/
theorem sanitize_idempotent_amended (name : List Char) (h : name ≠ [])
    (r : List Char) (hr : BlobNameValidator.sanitize name false = Except.ok r)
    (hlast : r.getLast? ≠ some '.') :
    BlobNameValidator.sanitize r false = Except.ok r := by
  rw [sanitize_false_eq h] at hr
  injection hr with hr
  have hcore := sanitizeCore_ne_nil name
  have hrlen : r.length ≤ 1024 := by
    rw [← hr, List.length_take]
    exact Nat.min_le_left _ _
  have hrne : r ≠ [] := by
    rw [← hr]
    apply List.ne_nil_of_length_pos
    rw [List.length_take]
    have := List.length_pos.mpr hcore
    omega
  have hmem : ∀ x ∈ r, x ∈ sanitizeCore name := by
    intro x hx
    rw [← hr] at hx
    exact List.take_subset _ _ hx
  have hhead : ∀ x, r.head? = some x → isStripChar x = false := by
    intro x hx
    rw [← hr, head?_take (by norm_num) hcore] at hx
    exact sanitizeCore_head hx
  have hlast' : ∀ x, r.getLast? = some x → isStripChar x = false := by
    intro x hx
    have hxr : x ∈ r := List.mem_of_getLast?_eq_some hx
    have hsp : isSpaceChar x = false := (mem_sanitizeCore (hmem x hxr)).2
    apply isStripChar_eq_false (ne_space_of_not_space hsp)
    intro hdot
    subst hdot
    exact hlast hx
  have hfix : sanitizeCore r = r :=
    sanitizeCore_of_fixpoints hrne
      (fun x hx => (mem_sanitizeCore (hmem x hx)).1)
      (fun x hx => (mem_sanitizeCore (hmem x hx)).2)
      hhead hlast'
  rw [sanitize_false_eq hrne, hfix, List.take_of_length_le hrlen]

/-- C10 witness: idempotence on the concrete one-character input "a". -/
theorem sanitize_idempotent_amended_witness :
    BlobNameValidator.sanitize ['a'] false = Except.ok ['a'] :=
  sanitize_idempotent_amended ['a'] (by decide) ['a'] rfl (by decide)

/-- C10 counterexample: sanitize with add_extension = false is not
idempotent: on a 1025-character input the first pass truncates to 1024
characters and exposes a trailing dot, which the second pass strips. -/
theorem sanitize_idempotent_counterexample :
    BlobNameValidator.sanitize (List.replicate 1023 'a' ++ ['.', 'x']) false
      = Except.ok (List.replicate 1023 'a' ++ ['.'])
  ∧ BlobNameValidator.sanitize (List.replicate 1023 'a' ++ ['.']) false
      = Except.ok (List.replicate 1023 'a')
  ∧ List.replicate 1023 'a' ++ ['.'] ≠ List.replicate 1023 'a' := by
  have hlen : (List.replicate 1023 'a' : List Char).length = 1023 :=
    List.length_replicate 1023 'a'
  have hrepne : List.replicate 1023 'a' ≠ ([] : List Char) := by
    intro heq
    have hl := congrArg List.length heq
    rw [hlen] at hl
    simp at hl
  refine ⟨?_, ?_, ?_⟩
  · rw [sanitize_false_eq (replicate_a_append_ne_nil 1023 (by omega) _)]
    rw [sanitizeCore_replicate_a_dot_x 1023 (by omega)]
    rw [show (1024 : Nat) = (List.replicate 1023 'a' : List Char).length + 1 by
      rw [hlen]]
    rw [take_length_succ_append_two]
  · rw [sanitize_false_eq (replicate_a_append_ne_nil 1023 (by omega) _)]
    have hcore : sanitizeCore (List.replicate 1023 'a' ++ ['.'])
        = List.replicate 1023 'a' := by
      unfold sanitizeCore collapseWs
      have hmem : ∀ x ∈ List.replicate 1023 'a' ++ (['.'] : List Char),
          x = 'a' ∨ x = '.' := by
        intro x hx
        rcases List.mem_append.mp hx with h1 | h1
        · exact Or.inl (List.eq_of_mem_replicate h1)
        · simp only [List.mem_cons, List.not_mem_nil, or_false] at h1
          exact Or.inr h1
      rw [replaceIllegal_eq_self
        (fun x hx => by rcases hmem x hx with rfl | rfl <;> decide)]
      rw [collapseAux_eq_self
        (fun x hx => by rcases hmem x hx with rfl | rfl <;> decide) false]
      rw [strip_trailing_dot 1023 (by omega)]
      simp only [hrepne, if_false]
    rw [hcore, List.take_of_length_le (by rw [hlen]; omega)]
  · intro heq
    have hl := congrArg List.length heq
    rw [List.length_append, hlen] at hl
    have h1 : (['.'] : List Char).length = 1 := rfl
    rw [h1] at hl
    omega

/-! ## ChunkedUploader (src/utils/blob.py, lines 117-210) -/

/-- Byte strings are modelled as lists of natural numbers (byte values). -/
abbrev Bytes := List Nat

/-- UploadConfig (src/utils/blob.py lines 41-48).  The progress callback is
omitted from the model: it only receives notifications and cannot influence
the upload. -/
structure UploadConfig where
  chunk_size : Nat
  overwrite : Bool
  content_type : Option String
  metadata : Option (List (String × String))
deriving DecidableEq

/-- Backend calls issued by ChunkedUploader against the Azure BlobClient. -/
inductive UploadCall where
  | uploadBlob (data : Bytes) (overwrite : Bool) (contentType : Option String)
      (md : Option (List (String × String)))
  | stageBlock (blockId : Bytes) (chunk : Bytes)
  | commitBlockList (ids : List Bytes) (contentType : Option String)
      (md : Option (List (String × String)))
deriving DecidableEq

/-- Big-endian k-digit decimal representation of n with leading zeros: the
digit list of the Python format "%08d" for k = 8 and n below 10^8. -/
def padDigits : Nat → Nat → List Nat
  | 0, _ => []
  | k + 1, n => n / 10 ^ k :: padDigits k (n % 10 ^ k)

/-- Standard base64 alphabet: sextet value to ASCII code. -/
def b64Char (v : Nat) : Nat :=
  if v < 26 then 65 + v
  else if v < 52 then 97 + (v - 26)
  else if v < 62 then 48 + (v - 52)
  else if v = 62 then 43
  else 47

/-- base64.b64encode on a byte string: each 3-byte group becomes four
alphabet characters; a trailing group of 2 or 1 bytes is padded with the
character = (ASCII 61). -/
def base64Encode : Bytes → Bytes
  | b0 :: b1 :: b2 :: rest =>
    b64Char (b0 / 4) :: b64Char (b0 % 4 * 16 + b1 / 16)
      :: b64Char (b1 % 16 * 4 + b2 / 64) :: b64Char (b2 % 64)
      :: base64Encode rest
  | [b0, b1] =>
    [b64Char (b0 / 4), b64Char (b0 % 4 * 16 + b1 / 16), b64Char (b1 % 16 * 4), 61]
  | [b0] => [b64Char (b0 / 4), b64Char (b0 % 4 * 16), 61, 61]
  | [] => []

/-- ASCII codes of the pre-encoding block string: "block-" followed by the
8-digit zero-padded decimal of the sequence number. -/
def blockString (n : Nat) : Bytes :=
  [98, 108, 111, 99, 107, 45] ++ (padDigits 8 n).map (fun d => 48 + d)

/-- ChunkedUploader._generate_block_id (src/utils/blob.py lines 206-210):
base64 of "block-" plus the 8-digit zero-padded sequence number. -/
def ChunkedUploader.generateBlockId (n : Nat) : Bytes :=
  base64Encode (blockString n)

/-- Python string comparison: strict lexicographic order on code points. -/
def strLtB : List Nat → List Nat → Bool
  | [], [] => false
  | [], _ :: _ => true
  | _ :: _, [] => false
  | a :: as, b :: bs =>
    if a < b then true else if b < a then false else strLtB as bs

/-- Python slice data[i : j] on a byte string. -/
def pySlice (l : Bytes) (i j : Nat) : Bytes :=
  (l.drop i).take (j - i)

/-- Python range(0, stop, step) for positive step: 0, step, 2*step and so on,
strictly below stop. -/
def pyRange (stop step : Nat) : List Nat :=
  (List.range ((stop + step - 1) / step)).map (fun k => k * step)

/-- Loop state of ChunkedUploader._staged_upload: the accumulated block_list,
the backend calls issued so far, and chunk_count. -/
structure StagedState where
  block_list : List Bytes
  calls : List UploadCall
  chunk_count : Nat
deriving DecidableEq

/-- One iteration of the staging loop (src/utils/blob.py lines 177-192):
slice the chunk, generate the block id from chunk_count, stage the block,
append the id to block_list and increment chunk_count. -/
def stagedStep (data : Bytes) (cs : Nat) (st : StagedState) (i : Nat) :
    StagedState :=
  ⟨st.block_list ++ [ChunkedUploader.generateBlockId st.chunk_count],
   st.calls ++ [UploadCall.stageBlock
     (ChunkedUploader.generateBlockId st.chunk_count) (pySlice data i (i + cs))],
   st.chunk_count + 1⟩

/-- Final loop state of ChunkedUploader._staged_upload. -/
def ChunkedUploader.stagedState (data : Bytes) (cs : Nat) : StagedState :=
  (pyRange data.length cs).foldl (stagedStep data cs) ⟨[], [], 0⟩

/-- ChunkedUploader.upload (src/utils/blob.py lines 124-204), as the list of
backend calls it issues: a single upload_blob call when the payload is at
most chunk_size, otherwise the staging loop followed by commit_block_list of
the accumulated block_list. -/
def ChunkedUploader.upload (data : Bytes) (config : UploadConfig) :
    List UploadCall :=
  if data.length ≤ config.chunk_size then
    [UploadCall.uploadBlob data config.overwrite config.content_type
      config.metadata]
  else
    (ChunkedUploader.stagedState data config.chunk_size).calls
      ++ [UploadCall.commitBlockList
        (ChunkedUploader.stagedState data config.chunk_size).block_list
        config.content_type config.metadata]

/-! ### Facts about the staging loop -/

theorem staged_foldl (data : Bytes) (cs : Nat) (n : Nat) :
    (List.range n).foldl (fun st k => stagedStep data cs st (k * cs)) ⟨[], [], 0⟩
      = ⟨(List.range n).map ChunkedUploader.generateBlockId,
         (List.range n).map (fun k => UploadCall.stageBlock
           (ChunkedUploader.generateBlockId k)
           (pySlice data (k * cs) (k * cs + cs))),
         n⟩ := by
  induction n with
  | zero => rfl
  | succ m ih =>
    rw [List.range_succ, List.foldl_append, ih]
    simp [stagedStep, List.range_succ]

theorem stagedState_eq (data : Bytes) (cs : Nat) :
    ChunkedUploader.stagedState data cs
      = ⟨(List.range ((data.length + cs - 1) / cs)).map
           ChunkedUploader.generateBlockId,
         (List.range ((data.length + cs - 1) / cs)).map (fun k =>
           UploadCall.stageBlock (ChunkedUploader.generateBlockId k)
             (pySlice data (k * cs) (k * cs + cs))),
         (data.length + cs - 1) / cs⟩ := by
  unfold ChunkedUploader.stagedState pyRange
  rw [List.foldl_map]
  exact staged_foldl data cs _

theorem flatten_chunks (cs : Nat) (hcs : 0 < cs) (d : Bytes) :
    ((List.range ((d.length + cs - 1) / cs)).map
      (fun k => pySlice d (k * cs) (k * cs + cs))).flatten = d := by
  have main : ∀ (n : Nat) (d : Bytes), d.length ≤ n →
      ((List.range ((d.length + cs - 1) / cs)).map
        (fun k => pySlice d (k * cs) (k * cs + cs))).flatten = d := by
    intro n
    induction n with
    | zero =>
      intro d hd
      have hnil : d = [] := List.eq_nil_of_length_eq_zero (Nat.le_zero.mp hd)
      subst hnil
      have h0 : ((List.nil : Bytes).length + cs - 1) / cs = 0 :=
        Nat.div_eq_of_lt (by simp; omega)
      rw [h0]
      rfl
    | succ m ih =>
      intro d hd
      by_cases hnil : d = []
      · subst hnil
        have h0 : ((List.nil : Bytes).length + cs - 1) / cs = 0 :=
          Nat.div_eq_of_lt (by simp; omega)
        rw [h0]
        rfl
      · have hpos : 0 < d.length := List.length_pos.mpr hnil
        have hn : (d.length + cs - 1) / cs = (d.length - 1) / cs + 1 := by
          have h1 : d.length + cs - 1 = (d.length - 1) + cs := by omega
          rw [h1, Nat.add_div_right _ hcs]
        have hq : (d.length - 1) / cs = ((d.drop cs).length + cs - 1) / cs := by
          rw [List.length_drop]
          by_cases hlc : d.length ≤ cs
          · have h1 : d.length - cs = 0 := by omega
            rw [h1, Nat.div_eq_of_lt (by omega), Nat.div_eq_of_lt (by omega)]
          · have h1 : d.length - cs + cs - 1 = d.length - 1 := by omega
            rw [h1]
        rw [hn, List.range_succ_eq_map, List.map_cons, List.flatten_cons,
          List.map_map]
        have hzero : pySlice d (0 * cs) (0 * cs + cs) = d.take cs := by
          unfold pySlice
          rw [Nat.zero_mul, List.drop_zero, Nat.zero_add, Nat.sub_zero]
        have hshift : ∀ k, ((fun k => pySlice d (k * cs) (k * cs + cs))
              ∘ Nat.succ) k
            = pySlice (d.drop cs) (k * cs) (k * cs + cs) := by
          intro k
          show pySlice d ((k + 1) * cs) ((k + 1) * cs + cs)
            = pySlice (d.drop cs) (k * cs) (k * cs + cs)
          unfold pySlice
          rw [Nat.add_sub_cancel_left, Nat.add_sub_cancel_left]
          rw [List.drop_drop]
          have harith : cs + k * cs = (k + 1) * cs := by ring
          rw [harith]
        rw [List.map_congr_left (fun k _ => hshift k)]
        have hih : ((List.range (((d.drop cs).length + cs - 1) / cs)).map
            (fun k => pySlice (d.drop cs) (k * cs) (k * cs + cs))).flatten
            = d.drop cs := by
          apply ih
          rw [List.length_drop]
          omega
        rw [hq, hih, hzero]
        exact List.take_append_drop cs d
  exact main d.length d (Nat.le_refl _)

/-- C1: with a positive chunk size, ChunkedUploader.upload issues the single
atomic upload_blob call carrying the full payload, content type and metadata
exactly when the payload is at most chunk_size; for a strictly larger payload
it stages ceil(size / chunk_size) blocks in order, commits the block
identifiers in the same order the chunks were staged, and the concatenation
of the staged chunks in committed order is the original payload. -/
theorem chunked_upload_strategy (data : Bytes) (config : UploadConfig)
    (h : 0 < config.chunk_size) :
    (data.length ≤ config.chunk_size →
      ChunkedUploader.upload data config
        = [UploadCall.uploadBlob data config.overwrite config.content_type
            config.metadata])
  ∧ (config.chunk_size < data.length →
      ∃ blocks : List (Bytes × Bytes),
        ChunkedUploader.upload data config
          = blocks.map (fun b => UploadCall.stageBlock b.1 b.2)
            ++ [UploadCall.commitBlockList (blocks.map Prod.fst)
              config.content_type config.metadata]
        ∧ blocks.length
            = (data.length + config.chunk_size - 1) / config.chunk_size
        ∧ (blocks.map Prod.snd).flatten = data) := by
  constructor
  · intro hle
    unfold ChunkedUploader.upload
    rw [if_pos hle]
  · intro hgt
    refine ⟨(List.range
        ((data.length + config.chunk_size - 1) / config.chunk_size)).map
      (fun k => (ChunkedUploader.generateBlockId k,
        pySlice data (k * config.chunk_size)
          (k * config.chunk_size + config.chunk_size))), ?_, ?_, ?_⟩
    · unfold ChunkedUploader.upload
      rw [if_neg (by omega), stagedState_eq]
      simp only [List.map_map]
      rfl
    · rw [List.length_map, List.length_range]
    · rw [List.map_map]
      exact flatten_chunks config.chunk_size h data

/-- C1 witness: a five-byte payload with chunk size two is staged as three
blocks of sizes two, two and one, whose concatenation is the payload. -/
theorem chunked_upload_strategy_witness :
    ∃ blocks : List (Bytes × Bytes),
      ChunkedUploader.upload [1, 2, 3, 4, 5] ⟨2, true, none, none⟩
        = blocks.map (fun b => UploadCall.stageBlock b.1 b.2)
          ++ [UploadCall.commitBlockList (blocks.map Prod.fst) none none]
      ∧ blocks.length = 3
      ∧ (blocks.map Prod.snd).flatten = [1, 2, 3, 4, 5] :=
  (chunked_upload_strategy [1, 2, 3, 4, 5] ⟨2, true, none, none⟩
    (by decide)).2 (by decide)

/-! ### Lexicographic order of block identifiers -/

theorem strLtB_cons (a b : Nat) (as bs : List Nat) :
    strLtB (a :: as) (b :: bs)
      = if a < b then true else if b < a then false else strLtB as bs := rfl

theorem strLtB_append_left (p : List Nat) (a b : List Nat) :
    strLtB (p ++ a) (p ++ b) = strLtB a b := by
  induction p with
  | nil => rfl
  | cons x xs ih =>
    rw [List.cons_append, List.cons_append, strLtB_cons,
      if_neg (Nat.lt_irrefl x), if_neg (Nat.lt_irrefl x), ih]

theorem strLtB_map_add (c : Nat) (a : List Nat) : ∀ (b : List Nat),
    strLtB (a.map (fun d => c + d)) (b.map (fun d => c + d)) = strLtB a b := by
  induction a with
  | nil => intro b; cases b <;> rfl
  | cons x xs ih =>
    intro b
    cases b with
    | nil => rfl
    | cons y ys =>
      rw [List.map_cons, List.map_cons, strLtB_cons, strLtB_cons, ih]
      by_cases h1 : x < y
      · rw [if_pos h1, if_pos (Nat.add_lt_add_left h1 c)]
      · rw [if_neg h1, if_neg (fun hc => h1 (Nat.lt_of_add_lt_add_left hc))]
        by_cases h2 : y < x
        · rw [if_pos h2, if_pos (Nat.add_lt_add_left h2 c)]
        · rw [if_neg h2, if_neg (fun hc => h2 (Nat.lt_of_add_lt_add_left hc))]

theorem padDigits_succ (k n : Nat) :
    padDigits (k + 1) n = n / 10 ^ k :: padDigits k (n % 10 ^ k) := rfl

theorem padDigits_lt : ∀ (k i j : Nat), i < j → j < 10 ^ k →
    strLtB (padDigits k i) (padDigits k j) = true := by
  intro k
  induction k with
  | zero =>
    intro i j hij hj
    rw [Nat.pow_zero] at hj
    omega
  | succ m ih =>
    intro i j hij hj
    rw [padDigits_succ, padDigits_succ, strLtB_cons]
    have hdle : i / 10 ^ m ≤ j / 10 ^ m :=
      Nat.div_le_div_right (Nat.le_of_lt hij)
    by_cases hd : i / 10 ^ m < j / 10 ^ m
    · rw [if_pos hd]
    · have hde : i / 10 ^ m = j / 10 ^ m :=
        Nat.le_antisymm hdle (Nat.not_lt.mp hd)
      rw [if_neg hd, if_neg (by omega)]
      apply ih
      · have hi := Nat.div_add_mod i (10 ^ m)
        have hj2 := Nat.div_add_mod j (10 ^ m)
        rw [← hde] at hj2
        omega
      · exact Nat.mod_lt _ (Nat.pos_pow_of_pos m (by omega))

/-- C2 (amended): the block identifier for sequence number n is the base64
encoding of the string "block-" followed by the 8-digit zero-padded decimal
of n, and the pre-encoding block strings sort lexicographically in upload
order for all sequence numbers below 10^8; the base64-encoded identifiers
themselves do not always preserve this order (see the counterexample at
i = 300, j = 400). -/
theorem blockString_lex_monotone (i j : Nat) (hij : i < j) (hj : j < 10 ^ 8) :
    ChunkedUploader.generateBlockId i = base64Encode (blockString i)
  ∧ strLtB (blockString i) (blockString j) = true := by
  refine ⟨rfl, ?_⟩
  unfold blockString
  rw [strLtB_append_left, strLtB_map_add]
  exact padDigits_lt 8 i j hij hj

/-- C2 witness: the amended ordering statement at the concrete pair 1, 2. -/
theorem blockString_lex_monotone_witness :
    ChunkedUploader.generateBlockId 1 = base64Encode (blockString 1)
  ∧ strLtB (blockString 1) (blockString 2) = true :=
  blockString_lex_monotone 1 2 (by decide) (by decide)

/-- C2 counterexample: 300 comes before 400 in upload order, but the base64
block identifier of 300 is lexicographically greater than that of 400 (the
encoded digit 3 maps to the letter z, ASCII 122, while the encoded digit 4
maps to the digit 0, ASCII 48), so lexical sort order of the generated
identifiers does not match upload order. -/
theorem generateBlockId_lex_counterexample :
    (300 : Nat) < 400
  ∧ strLtB (ChunkedUploader.generateBlockId 300)
      (ChunkedUploader.generateBlockId 400) = false := ⟨by decide, by decide⟩

/-! ## BlobStorageServiceClient (src/utils/blob.py, lines 213-545) -/

/-- Error taxonomy of the module: BlobAlreadyExistsError, BlobNotFoundError,
the generic BlobStorageError wrapper, and an encode-error case for the
UnicodeEncodeError branch of upload_text. -/
inductive BlobError where
  | alreadyExists
  | notFound
  | storage
  | encodeError
deriving DecidableEq

/-- Blob container contents: an association list from blob name to content. -/
structure Store where
  blobs : List (String × Bytes)
deriving DecidableEq

/-- Lookup of a blob by name. -/
def Store.lookup (s : Store) (n : String) : Option Bytes :=
  (s.blobs.find? (fun b => b.1 == n)).map (fun b => b.2)

/-- Insertion or replacement of a blob. -/
def Store.insert (s : Store) (n : String) (d : Bytes) : Store :=
  ⟨(n, d) :: s.blobs.filter (fun b => !(b.1 == n))⟩

/-- Effect of a ChunkedUploader call trace on the store for blob n: a simple
upload writes the data; staged blocks are held in an uncommitted staging area
and become visible only at commit_block_list, which concatenates the staged
chunks in committed order. -/
def applyCalls (s : Store) (n : String) (calls : List UploadCall) : Store :=
  (calls.foldl (fun (acc : Store × List (Bytes × Bytes)) c =>
    match c with
    | UploadCall.uploadBlob d _ _ _ => (acc.1.insert n d, acc.2)
    | UploadCall.stageBlock bid chunk => (acc.1, acc.2 ++ [(bid, chunk)])
    | UploadCall.commitBlockList ids _ _ =>
      (acc.1.insert n ((ids.filterMap (fun i =>
        (acc.2.find? (fun st => st.1 == i)).map (fun st => st.2))).flatten),
       acc.2)) (s, [])).1

/-- BlobStorageServiceClient._upload_bytes (src/utils/blob.py lines 358-371):
when overwrite is disabled and the blob already exists, raise
BlobAlreadyExistsError before creating the uploader; otherwise delegate to
ChunkedUploader.upload.  The result carries the outcome, the updated store,
and the upload calls issued. -/
def uploadBytes (store : Store) (data : Bytes) (name : String)
    (config : UploadConfig) :
    Except BlobError Bool × Store × List UploadCall :=
  if config.overwrite = false ∧ (store.lookup name).isSome = true then
    (Except.error BlobError.alreadyExists, store, [])
  else
    (Except.ok true,
     applyCalls store name (ChunkedUploader.upload data config),
     ChunkedUploader.upload data config)

/-- Code points removed by BlobStorageServiceClient._sanitize_text, the regex
character class of x00-x08, x0b-x0c, x0e-x1f and x7f-x9f. -/
def isDisallowedControl (c : Nat) : Bool :=
  decide (c ≤ 8 ∨ (11 ≤ c ∧ c ≤ 12) ∨ (14 ≤ c ∧ c ≤ 31)
    ∨ (127 ≤ c ∧ c ≤ 159))

/-- BlobStorageServiceClient._sanitize_text (lines 309-312): drop the
disallowed control characters. -/
def sanitizeText (t : List Nat) : List Nat :=
  t.filter (fun c => !isDisallowedControl c)

/-- UTF-8 encoding of one code point as in str.encode with errors="replace":
an unencodable lone surrogate becomes the replacement byte, the question
mark. -/
def utf8EncodeChar (c : Nat) : Bytes :=
  if c < 128 then [c]
  else if c < 2048 then [192 + c / 64, 128 + c % 64]
  else if 55296 ≤ c ∧ c ≤ 57343 then [63]
  else if c < 65536 then [224 + c / 4096, 128 + c / 64 % 64, 128 + c % 64]
  else [240 + c / 262144, 128 + c / 4096 % 64, 128 + c / 64 % 64, 128 + c % 64]

/-- Total UTF-8 encoding of a code-point sequence with replacement. -/
def utf8EncodeReplace (t : List Nat) : Bytes :=
  (t.map utf8EncodeChar).flatten

/-- BlobStorageServiceClient._safe_utf8_bytes (lines 314-317): strip the
disallowed controls and encode; never fails. -/
def safeUtf8Bytes (t : List Nat) : Bytes :=
  utf8EncodeReplace (sanitizeText t)

/-- Content-type defaulting of upload_text (src/utils/blob.py lines 298-301):
a missing config is replaced by a fresh one carrying the text default; a
caller config whose content_type is None has that field assigned in place.
The value is the config object as the caller observes it after the call. -/
def uploadTextConfig (config : Option UploadConfig) : UploadConfig :=
  match config with
  | none => ⟨4 * 1024 * 1024, true, some "text/plain; charset=utf-8", none⟩
  | some c =>
    if c.content_type = none then
      ⟨c.chunk_size, c.overwrite, some "text/plain; charset=utf-8", c.metadata⟩
    else c

/-- BlobStorageServiceClient.upload_text (src/utils/blob.py lines 278-307):
default the content type, strip disallowed controls, encode to UTF-8 with
replacement, and delegate to _upload_bytes.  The second component is the
caller-visible config object after the call. -/
def uploadText (store : Store) (text : List Nat) (name : String)
    (config : Option UploadConfig) :
    (Except BlobError Bool × Store × List UploadCall) × UploadConfig :=
  (uploadBytes store (safeUtf8Bytes text) name (uploadTextConfig config),
   uploadTextConfig config)

/-- ContentTypeDetector.detect (src/utils/blob.py lines 51-58): the result of
mimetypes.guess_type (an external oracle, passed as an argument) or the
octet-stream default. -/
def ContentTypeDetector.detect (guessed : Option String) : String :=
  guessed.getD "application/octet-stream"

/-- Content-type defaulting of upload_file (src/utils/blob.py lines 345-350):
a missing config is replaced by a fresh default config, and a content_type of
None is assigned in place to the detected MIME type.  The value is the config
object as the caller observes it after the call. -/
def uploadFileConfig (config : Option UploadConfig)
    (guessed : Option String) : UploadConfig :=
  let c := config.getD ⟨4 * 1024 * 1024, true, none, none⟩
  if c.content_type = none then
    ⟨c.chunk_size, c.overwrite, some (ContentTypeDetector.detect guessed),
     c.metadata⟩
  else c

/-- C5: when overwrite is false and a blob of the name already exists,
_upload_bytes (and upload_text, which delegates to it) fails with the
already-exists error, issues no upload call, and leaves the store, in
particular the existing blob content, unchanged. -/
theorem uploadBytes_no_overwrite (store : Store) (data : Bytes)
    (name : String) (config : UploadConfig) (text : List Nat)
    (h1 : config.overwrite = false)
    (h2 : (store.lookup name).isSome = true) :
    uploadBytes store data name config
      = (Except.error BlobError.alreadyExists, store, [])
  ∧ uploadText store text name (some config)
      = ((Except.error BlobError.alreadyExists, store, []),
         uploadTextConfig (some config)) := by
  constructor
  · unfold uploadBytes
    rw [if_pos ⟨h1, h2⟩]
  · have hcfg : (uploadTextConfig (some config)).overwrite = false := by
      simp only [uploadTextConfig]
      by_cases hc : config.content_type = none
      · rw [if_pos hc]
        exact h1
      · rw [if_neg hc]
        exact h1
    unfold uploadText uploadBytes
    rw [if_pos ⟨hcfg, h2⟩]

/-- C5 witness: a store already holding blob b, a config with overwrite
false: both the byte path and the text path produce the already-exists error
without touching the store. -/
theorem uploadBytes_no_overwrite_witness :
    uploadBytes ⟨[("b", [7])]⟩ [1, 2] "b" ⟨1024, false, none, none⟩
      = (Except.error BlobError.alreadyExists, ⟨[("b", [7])]⟩, [])
  ∧ uploadText ⟨[("b", [7])]⟩ [65] "b" (some ⟨1024, false, none, none⟩)
      = ((Except.error BlobError.alreadyExists, ⟨[("b", [7])]⟩, []),
         uploadTextConfig (some ⟨1024, false, none, none⟩)) :=
  uploadBytes_no_overwrite ⟨[("b", [7])]⟩ [1, 2] "b"
    ⟨1024, false, none, none⟩ [65] rfl (by decide)

/-- C6: upload_text never fails due to text encoding: the encoding step is
total, so the only possible failure is the overwrite conflict and never an
encode error; the text is filtered exactly by the control-character predicate
of the claim (all C0 controls except tab, newline and carriage return, plus
U+007F through U+009F); the content type defaults to text/plain;
charset=utf-8 when the config specifies none; and the call delegates to the
byte-upload path on the encoded bytes. -/
theorem uploadText_total_encoding (store : Store) (text : List Nat)
    (name : String) (config : Option UploadConfig) :
    (∀ e, (uploadText store text name config).1.1 = Except.error e →
      e = BlobError.alreadyExists ∧ e ≠ BlobError.encodeError)
  ∧ sanitizeText text = text.filter (fun c =>
      !(decide ((c < 32 ∧ c ≠ 9 ∧ c ≠ 10 ∧ c ≠ 13) ∨ (127 ≤ c ∧ c ≤ 159))))
  ∧ ((config = none ∨ ∃ c, config = some c ∧ c.content_type = none) →
      (uploadTextConfig config).content_type
        = some "text/plain; charset=utf-8")
  ∧ (uploadText store text name config).1
      = uploadBytes store (utf8EncodeReplace (sanitizeText text)) name
        (uploadTextConfig config) := by
  refine ⟨?_, ?_, ?_, rfl⟩
  · intro e he
    unfold uploadText uploadBytes at he
    by_cases hc : (uploadTextConfig config).overwrite = false
        ∧ (store.lookup name).isSome = true
    · rw [if_pos hc] at he
      have he' : Except.error BlobError.alreadyExists = Except.error e := he
      injection he' with he'
      subst he'
      exact ⟨rfl, by decide⟩
    · rw [if_neg hc] at he
      have he' : Except.ok true = Except.error e := he
      exact Except.noConfusion he'
  · apply List.filter_congr
    intro c _
    unfold isDisallowedControl
    have hiff : (c ≤ 8 ∨ (11 ≤ c ∧ c ≤ 12) ∨ (14 ≤ c ∧ c ≤ 31)
          ∨ (127 ≤ c ∧ c ≤ 159))
        ↔ ((c < 32 ∧ c ≠ 9 ∧ c ≠ 10 ∧ c ≠ 13) ∨ (127 ≤ c ∧ c ≤ 159)) := by
      omega
    exact congrArg (fun b => !b) (decide_eq_decide.mpr hiff)
  · intro hc
    rcases hc with rfl | ⟨c, rfl, hcc⟩
    · rfl
    · simp only [uploadTextConfig]
      rw [if_pos hcc]

/-- C6 witness: the content-type default on a concrete call with no config. -/
theorem uploadText_total_encoding_witness :
    (uploadTextConfig none).content_type
      = some "text/plain; charset=utf-8" :=
  (uploadText_total_encoding ⟨[]⟩ [72, 0, 105] "n" none).2.2.1 (Or.inl rfl)

/-! ## blob_exists (src/utils/blob.py, lines 523-545) -/

/-- Outcome of one Azure SDK call: success, ResourceNotFoundError, or any
other AzureError. -/
inductive AzResp where
  | ok
  | notFound
  | azErr
deriving DecidableEq

/-- BlobStorageServiceClient._blob_exists (lines 539-545):
get_blob_properties returning successfully means true, ResourceNotFoundError
is caught and means false, any other AzureError propagates. -/
def blobExistsInner (props : AzResp) : Except AzResp Bool :=
  match props with
  | AzResp.ok => Except.ok true
  | AzResp.notFound => Except.ok false
  | AzResp.azErr => Except.error AzResp.azErr

/-- BlobStorageServiceClient._get_blob_client (lines 266-276), a context
manager: an AzureError raised while obtaining the client or thrown into the
managed block is re-raised as BlobStorageError. -/
def withBlobClient (client : AzResp) (body : Except AzResp Bool) :
    Except BlobError Bool :=
  match client with
  | AzResp.ok =>
    match body with
    | Except.ok b => Except.ok b
    | Except.error _ => Except.error BlobError.storage
  | AzResp.notFound => Except.error BlobError.storage
  | AzResp.azErr => Except.error BlobError.storage

/-- BlobStorageServiceClient.blob_exists (lines 523-537): the body runs under
the _get_blob_client context manager and any BlobStorageError is caught and
turned into false.  The two arguments are the backend outcomes of obtaining
the blob client and of get_blob_properties. -/
def blobExists (client : AzResp) (props : AzResp) : Except BlobError Bool :=
  match withBlobClient client (blobExistsInner props) with
  | Except.ok b => Except.ok b
  | Except.error BlobError.storage => Except.ok false
  | Except.error e => Except.error e

/-- C7: blob_exists never raises: whatever the backend outcome of obtaining
the client and of fetching the blob properties, it returns a Boolean, false
on every failure, and true exactly when both succeed. -/
theorem blobExists_never_raises (client props : AzResp) :
    blobExists client props
      = Except.ok (decide (client = AzResp.ok ∧ props = AzResp.ok)) := by
  cases client <;> cases props <;> rfl

/-! ## Article pipeline (src/utils/search.py, lines 39-117) -/

/-- ArticleData (src/utils/search.py lines 32-37). -/
structure ArticleData where
  url : String
  title : String
  text : String
deriving DecidableEq

/-- ArticleExtractor.extract_from_urls (src/utils/search.py lines 66-73):
extract_from_url catches every exception and returns None (the oracle f
gives the per-URL outcome); failed URLs are skipped and the remaining URLs
are still processed. -/
def extractFromUrls (f : String → Option ArticleData)
    (urls : List String) : List ArticleData :=
  urls.foldl (fun acc u =>
    match f u with
    | some a => acc ++ [a]
    | none => acc) []

/-- ArticleStorageManager.store_articles (src/utils/search.py lines 84-110):
each article is uploaded; an exception or a false result is logged and the
loop continues.  The oracle gives the per-article upload outcome; the result
is the list of successfully stored articles. -/
def storeArticles (upload : ArticleData → Except BlobError Bool)
    (articles : List ArticleData) : List ArticleData :=
  articles.foldl (fun acc a =>
    match upload a with
    | Except.ok true => acc ++ [a]
    | Except.ok false => acc
    | Except.error _ => acc) []

theorem extractFromUrls_eq_filterMap (f : String → Option ArticleData)
    (urls : List String) : extractFromUrls f urls = urls.filterMap f := by
  have gen : ∀ (us : List String) (acc : List ArticleData),
      us.foldl (fun acc u =>
        match f u with
        | some a => acc ++ [a]
        | none => acc) acc = acc ++ us.filterMap f := by
    intro us
    induction us with
    | nil => intro acc; simp
    | cons u us ih =>
      intro acc
      rw [List.foldl_cons, List.filterMap_cons]
      cases hf : f u with
      | none =>
        rw [ih]
      | some a =>
        rw [ih, List.append_assoc]
        rfl
  exact gen urls []

theorem storeArticles_all_ok (upload : ArticleData → Except BlobError Bool)
    (h : ∀ a, upload a = Except.ok true) (articles : List ArticleData) :
    storeArticles upload articles = articles := by
  have gen : ∀ (as : List ArticleData) (acc : List ArticleData),
      as.foldl (fun acc a =>
        match upload a with
        | Except.ok true => acc ++ [a]
        | Except.ok false => acc
        | Except.error _ => acc) acc = acc ++ as := by
    intro as
    induction as with
    | nil => intro acc; simp
    | cons a as ih =>
      intro acc
      rw [List.foldl_cons, h a, ih, List.append_assoc]
      rfl
  exact gen articles []

theorem storeArticles_eq_filter
    (upload : ArticleData → Except BlobError Bool)
    (articles : List ArticleData) :
    storeArticles upload articles
      = articles.filter (fun a =>
          match upload a with
          | Except.ok true => true
          | _ => false) := by
  have gen : ∀ (as : List ArticleData) (acc : List ArticleData),
      as.foldl (fun acc a =>
        match upload a with
        | Except.ok true => acc ++ [a]
        | Except.ok false => acc
        | Except.error _ => acc) acc
      = acc ++ as.filter (fun a =>
          match upload a with
          | Except.ok true => true
          | _ => false) := by
    intro as
    induction as with
    | nil => intro acc; simp
    | cons a as ih =>
      intro acc
      rw [List.foldl_cons, List.filter_cons]
      cases hu : upload a with
      | ok b =>
        cases b with
        | true => simp [ih, List.append_assoc]
        | false => simp [ih]
      | error e => simp [ih]
  exact gen articles []

/-- C8: the batch pipeline lets no per-item failure escape: extraction
returns exactly the successfully extracted articles in order (a URL whose
extraction fails is skipped and the remaining URLs are still processed); for
every upload oracle, storage stores exactly the articles whose upload
succeeds, so an article whose upload fails is skipped while the remaining
articles are still stored; and on three URLs of which exactly the middle
extraction fails, with all uploads succeeding, exactly the two extracted
articles are stored. -/
theorem article_pipeline_skips_failures (f : String → Option ArticleData)
    (upload : ArticleData → Except BlobError Bool)
    (u1 u2 u3 : String) (a1 a3 : ArticleData)
    (h1 : f u1 = some a1) (h2 : f u2 = none) (h3 : f u3 = some a3) :
    (∀ urls, extractFromUrls f urls = urls.filterMap f)
  ∧ (∀ articles, storeArticles upload articles
      = articles.filter (fun a =>
          match upload a with
          | Except.ok true => true
          | _ => false))
  ∧ ((∀ a, upload a = Except.ok true) →
      storeArticles upload (extractFromUrls f [u1, u2, u3]) = [a1, a3]
      ∧ (storeArticles upload (extractFromUrls f [u1, u2, u3])).length = 2) := by
  have hex : extractFromUrls f [u1, u2, u3] = [a1, a3] := by
    rw [extractFromUrls_eq_filterMap]
    rw [List.filterMap_cons, h1, List.filterMap_cons, h2,
      List.filterMap_cons, h3]
    rfl
  refine ⟨extractFromUrls_eq_filterMap f, storeArticles_eq_filter upload, ?_⟩
  intro hup
  constructor
  · rw [hex, storeArticles_all_ok upload hup]
  · rw [hex, storeArticles_all_ok upload hup]
    rfl

/-- C8 witness: three concrete URLs of which the middle extraction fails.
With an upload oracle that fails on the second extracted article, exactly the
first article is stored (the failing article is skipped, the batch
continues); with an always-succeeding oracle both extracted articles are
stored. -/
theorem article_pipeline_skips_failures_witness :
    storeArticles (fun a =>
        if a.url = "c" then Except.error BlobError.storage
        else Except.ok true)
      (extractFromUrls (fun u =>
        if u = "a" then some ⟨"a", "t1", "x1"⟩
        else if u = "c" then some ⟨"c", "t3", "x3"⟩ else none)
        ["a", "b", "c"])
      = [⟨"a", "t1", "x1"⟩]
  ∧ storeArticles (fun _ => Except.ok true)
      (extractFromUrls (fun u =>
        if u = "a" then some ⟨"a", "t1", "x1"⟩
        else if u = "c" then some ⟨"c", "t3", "x3"⟩ else none)
        ["a", "b", "c"])
      = [⟨"a", "t1", "x1"⟩, ⟨"c", "t3", "x3"⟩] := by
  have hfail := article_pipeline_skips_failures
    (fun u =>
      if u = "a" then some ⟨"a", "t1", "x1"⟩
      else if u = "c" then some ⟨"c", "t3", "x3"⟩ else none)
    (fun a =>
      if a.url = "c" then Except.error BlobError.storage
      else Except.ok true)
    "a" "b" "c" ⟨"a", "t1", "x1"⟩ ⟨"c", "t3", "x3"⟩
    (by decide) (by decide) (by decide)
  have hok := article_pipeline_skips_failures
    (fun u =>
      if u = "a" then some ⟨"a", "t1", "x1"⟩
      else if u = "c" then some ⟨"c", "t3", "x3"⟩ else none)
    (fun _ => Except.ok true)
    "a" "b" "c" ⟨"a", "t1", "x1"⟩ ⟨"c", "t3", "x3"⟩
    (by decide) (by decide) (by decide)
  constructor
  · rw [hfail.1, hfail.2.1]
    rfl
  · exact (hok.2.2 (fun _ => rfl)).1

/-- C9 (implicit): a caller config passed with content_type = None is mutated
in place: after upload_text its content_type is the text default with all
other fields preserved, and upload_text hands the caller back exactly that
object; after upload_file it is the detected MIME type; a config whose
content_type is already set is left unchanged, so a config reused across
calls keeps the content type assigned by the first call. -/
theorem config_content_type_mutation (c : UploadConfig)
    (guessed : Option String) (store : Store) (text : List Nat)
    (name : String) (h : c.content_type = none) :
    (uploadTextConfig (some c)).content_type
      = some "text/plain; charset=utf-8"
  ∧ uploadTextConfig (some c)
      = ⟨c.chunk_size, c.overwrite, some "text/plain; charset=utf-8",
         c.metadata⟩
  ∧ (uploadText store text name (some c)).2 = uploadTextConfig (some c)
  ∧ (uploadFileConfig (some c) guessed).content_type
      = some (ContentTypeDetector.detect guessed)
  ∧ (∀ c2 : UploadConfig, c2.content_type ≠ none →
      uploadTextConfig (some c2) = c2)
  ∧ uploadTextConfig (some (uploadTextConfig (some c)))
      = uploadTextConfig (some c) := by
  have htext : uploadTextConfig (some c)
      = ⟨c.chunk_size, c.overwrite, some "text/plain; charset=utf-8",
         c.metadata⟩ := by
    simp only [uploadTextConfig]
    rw [if_pos h]
  have hkeep : ∀ c2 : UploadConfig, c2.content_type ≠ none →
      uploadTextConfig (some c2) = c2 := by
    intro c2 hc2
    simp only [uploadTextConfig]
    rw [if_neg hc2]
  refine ⟨by rw [htext], htext, rfl, ?_, hkeep, ?_⟩
  · simp only [uploadFileConfig, Option.getD_some]
    rw [if_pos h]
  · rw [htext]
    apply hkeep
    intro hc
    exact Option.noConfusion hc

/-- C9 witness: a concrete caller config with no content type set. -/
theorem config_content_type_mutation_witness :
    (uploadTextConfig (some ⟨1024, true, none, none⟩)).content_type
      = some "text/plain; charset=utf-8" :=
  (config_content_type_mutation ⟨1024, true, none, none⟩ none ⟨[]⟩ []
    "n" rfl).1
